import Mathlib

/-!
Verification of the result-normalization pipeline of the whisper-server
repository (`whisper_server_fast.py`, `whisper_server_simple.py`).

The Python `transcribe` handlers are shallowly embedded: Python floats are
modelled as rationals (`ℚ`), Python strings as Lean `String`s, and the
backend's duck-typed `segment.words` attribute as an explicit variant type
(absent / unreadable / present), with `unreadable` standing for a value for
which `list(segment.words)` raises.
-/

/-- Python's `str.strip()` on a character list: drop leading and trailing
whitespace. -/
def stripChars (l : List Char) : List Char :=
  ((l.dropWhile Char.isWhitespace).reverse.dropWhile Char.isWhitespace).reverse

/-- Python's `str.strip()`. -/
def strip (s : String) : String :=
  ⟨stripChars s.data⟩

/-- Python's no-argument `str.split()` on a character list: split on runs of
whitespace, never producing empty tokens. -/
def tokenize (l : List Char) : List (List Char) :=
  match l with
  | [] => []
  | c :: cs =>
    if c.isWhitespace then
      tokenize cs
    else
      (c :: cs.takeWhile (fun d => !d.isWhitespace)) ::
        tokenize (cs.dropWhile (fun d => !d.isWhitespace))
termination_by l.length
decreasing_by
  · simp
  · simp only [List.length_cons]
    exact Nat.lt_succ_of_le (List.dropWhile_suffix _).sublist.length_le

/-- Python's no-argument `str.split()`. -/
def splitWS (s : String) : List String :=
  (tokenize s.data).map (fun t => ⟨t⟩)

/-- Python's `" ".join(parts)`. -/
def joinSp : List String → String
  | [] => ""
  | [p] => p
  | p :: q :: ps => p ++ " " ++ joinSp (q :: ps)

/-- `true` iff the character list contains two adjacent space characters. -/
def hasDoubleSpace : List Char → Bool
  | a :: b :: rest => (a = ' ' && b = ' ') || hasDoubleSpace (b :: rest)
  | _ => false

/-- `true` iff the list is empty or its first character is not whitespace. -/
def headNonWS : List Char → Bool
  | [] => true
  | c :: _ => !c.isWhitespace

/-- Python's `round(q, n)` modelled over `ℚ`: round `q` to `n` decimal
places (the model uses Mathlib's `round` for the integer rounding step). -/
def roundTo (n : ℕ) (q : ℚ) : ℚ :=
  (round (q * 10 ^ n) : ℤ) / 10 ^ n

/-- A backend word object: `word_info.word/.start/.end/.probability`.
The same shape serves for the word dictionaries the server emits
(`{"word": ..., "start": ..., "end": ..., "probability": ...}`).
The `end` attribute is called `end_` because `end` is reserved in Lean. -/
structure WordSpan where
  word : String
  start : ℚ
  end_ : ℚ
  probability : ℚ
deriving DecidableEq, Repr

/-- The state of a backend segment's `words` attribute, as the fast server's
duck-typed checks distinguish it: `absent` covers a missing attribute or
`words is None`; `unreadable` covers a value for which `list(segment.words)`
raises; `present ws` is a successfully listified word sequence. -/
inductive SegmentWords where
  | absent : SegmentWords
  | unreadable : SegmentWords
  | present : List WordSpan → SegmentWords
deriving DecidableEq, Repr

/-- A backend segment: `segment.text` and `segment.words`. -/
structure Segment where
  text : String
  words : SegmentWords
deriving DecidableEq, Repr

/-- The backend's `info` record: `info.language`, `info.language_probability`. -/
structure Info where
  language : String
  language_probability : ℚ
deriving DecidableEq, Repr

/-- The dictionary the fast server passes to `jsonify` on success. -/
structure TranscriptionResult where
  text : String
  language : String
  language_probability : ℚ
  words : List WordSpan
  total_duration : ℚ
deriving DecidableEq, Repr

/-- A minimal JSON value model, for stating which fields a response carries. -/
inductive Json where
  | str : String → Json
  | num : ℚ → Json
  | arr : List Json → Json
  | obj : List (String × Json) → Json

/-- The keys of a JSON object (empty for non-objects). -/
def Json.keys : Json → List String
  | .obj fs => fs.map Prod.fst
  | _ => []

/-- Field access on a JSON object (none for non-objects/missing keys). -/
def Json.get (j : Json) (k : String) : Option Json :=
  match j with
  | .obj fs => fs.lookup k
  | _ => none

/-- Serialization of one word dictionary inside the `"words"` array. -/
def wordJson (w : WordSpan) : Json :=
  .obj [("word", .str w.word), ("start", .num w.start),
        ("end", .num w.end_), ("probability", .num w.probability)]

/-- `request.args.get('language', 'ar')`: the language hint of a request,
defaulting to `"ar"` (both servers). -/
def requestLanguage (q : Option String) : String :=
  q.getD "ar"

namespace FastServer

/-- The word dictionary built at `whisper_server_fast.py` lines 109-114:
stripped word, `start`/`end` rounded to 2 decimals, `probability` rounded
to 3 decimals. -/
def roundSpan (w : WordSpan) : WordSpan :=
  ⟨strip w.word, roundTo 2 w.start, roundTo 2 w.end_, roundTo 3 w.probability⟩

/-- The body of the per-word conditional of `whisper_server_fast.py`
lines 107-116: strip the word, skip it when blank, otherwise emit the
rounded word dictionary. -/
def acceptSpan (w : WordSpan) : Option WordSpan :=
  if strip w.word = "" then none else some (roundSpan w)

/-- One iteration of the segment loop (`whisper_server_fast.py` lines
91-128): the words this segment appends to `words_data` and the strings it
appends to `full_text_parts`. -/
def processSegment (s : Segment) : List WordSpan × List String :=
  let segment_text := strip s.text
  match s.words with
  | .absent =>
      ([], if segment_text ≠ "" then [segment_text] else [])
  | .unreadable =>
      ([], [segment_text])
  | .present ws =>
      match ws with
      | [] => ([], [segment_text])
      | _ :: _ =>
          (ws.filterMap acceptSpan,
           ws.filterMap (fun w =>
             if strip w.word = "" then none else some (strip w.word)))

/-- The `words_data` accumulated over all segments, before the fallback. -/
def wordsOf (segs : List Segment) : List WordSpan :=
  segs.flatMap (fun s => (processSegment s).1)

/-- The `full_text_parts` accumulated over all segments. -/
def partsOf (segs : List Segment) : List String :=
  segs.flatMap (fun s => (processSegment s).2)

/-- `full_text = " ".join(full_text_parts)` (line 131). -/
def fullTextOf (segs : List Segment) : String :=
  joinSp (partsOf segs)

/-- The fallback synthesizer (lines 138-150): split the full text on
whitespace and give token `i` the span `[i*0.5, (i+1)*0.5]` with
probability `0.75`, skipping blank tokens. -/
def fallbackWords (t : String) : List WordSpan :=
  (splitWS t).enum.filterMap (fun p =>
    if strip p.2 = "" then none
    else some ⟨strip p.2, roundTo 2 ((p.1 : ℚ) * (1/2)),
               roundTo 2 (((p.1 : ℚ) + 1) * (1/2)), 3/4⟩)

/-- All word spans the backend supplied, in traversal order (readable
segments only). -/
def allSpans (segs : List Segment) : List WordSpan :=
  segs.flatMap (fun s =>
    match s.words with
    | .present ws => ws
    | _ => [])

/-- The fast server's `transcribe` handler, from the point where
`segments_list` and `info` are in hand to the dictionary passed to
`jsonify` (lines 84-161). The embedding is total: every backend result
yields a `TranscriptionResult`, mirroring the fact that this stretch of
code raises no exception of its own. -/
def transcribe (segs : List Segment) (info : Info) : TranscriptionResult :=
  let words_data := wordsOf segs
  let full_text := fullTextOf segs
  let final_words :=
    if words_data = [] ∧ full_text ≠ "" then fallbackWords full_text
    else words_data
  { text := full_text
    language := info.language
    language_probability := info.language_probability
    words := final_words
    total_duration :=
      match final_words.getLast? with
      | some w => w.end_
      | none => 0 }

/-- The JSON object the fast server returns on success (lines 155-161). -/
def inferenceResponse (segs : List Segment) (info : Info) : Json :=
  let r := transcribe segs info
  .obj [("text", .str r.text), ("language", .str r.language),
        ("language_probability", .num r.language_probability),
        ("words", .arr (r.words.map wordJson)),
        ("total_duration", .num r.total_duration)]

end FastServer

namespace SimpleServer

/-- The OpenAI-whisper backend's result dictionary as the simple server
reads it: `result["text"]` and the optional `result.get('language', ...)`. -/
structure WhisperResult where
  text : String
  language : Option String
deriving DecidableEq, Repr

/-- The fields of the simple server's success response. -/
structure SimpleResult where
  text : String
  language : String
  language_probability : ℚ
deriving DecidableEq, Repr

/-- The simple server's `transcribe` handler from the backend result to the
response fields (`whisper_server_simple.py` lines 73-85): `text` is
stripped, `language` falls back to the request's language hint, and
`language_probability` is fixed at `1.0`. -/
def transcribe (language : String) (result : WhisperResult) : SimpleResult :=
  { text := strip result.text
    language := result.language.getD language
    language_probability := 1 }

/-- The JSON object the simple server returns on success (lines 81-85). -/
def inferenceResponse (language : String) (result : WhisperResult) : Json :=
  let r := transcribe language result
  .obj [("text", .str r.text), ("language", .str r.language),
        ("language_probability", .num r.language_probability)]

end SimpleServer

/-! ### Basic string lemmas -/

lemma dropWhile_eq_self_of_not (p : Char → Bool) (l : List Char)
    (h : ∀ c ∈ l, p c = false) : l.dropWhile p = l := by
  cases l with
  | nil => rfl
  | cons c cs =>
    rw [List.dropWhile_cons, h c (List.mem_cons_self c cs)]
    simp

lemma stripChars_of_no_ws (l : List Char)
    (h : ∀ c ∈ l, c.isWhitespace = false) : stripChars l = l := by
  unfold stripChars
  rw [dropWhile_eq_self_of_not _ l h,
      dropWhile_eq_self_of_not _ _ (fun c hc => h c (List.mem_reverse.mp hc)),
      List.reverse_reverse]

lemma tokenize_mem (l : List Char) :
    ∀ t ∈ tokenize l, t ≠ [] ∧ ∀ c ∈ t, c.isWhitespace = false := by
  induction l using tokenize.induct with
  | case1 => intro t ht; simp [tokenize] at ht
  | case2 c cs hws ih =>
    intro t ht
    rw [tokenize, if_pos hws] at ht
    exact ih t ht
  | case3 c cs hws ih =>
    intro t ht
    rw [tokenize, if_neg hws] at ht
    rcases List.mem_cons.mp ht with h | h
    · subst h
      refine ⟨by simp, ?_⟩
      intro d hd
      rcases List.mem_cons.mp hd with h | h
      · subst h; simpa using hws
      · simpa using List.mem_takeWhile_imp h
    · exact ih t h

lemma splitWS_mem (s : String) :
    ∀ w ∈ splitWS s, w ≠ "" ∧ strip w = w := by
  intro w hw
  obtain ⟨t, ht, rfl⟩ := List.mem_map.mp hw
  obtain ⟨hne, hnws⟩ := tokenize_mem s.data t ht
  constructor
  · intro h
    exact hne (congrArg String.data h)
  · show (⟨stripChars t⟩ : String) = ⟨t⟩
    rw [stripChars_of_no_ws t hnws]

lemma headNonWS_dropWhile (l : List Char) :
    headNonWS (l.dropWhile Char.isWhitespace) = true := by
  induction l with
  | nil => rfl
  | cons a as ih =>
    rw [List.dropWhile_cons]
    by_cases hp : Char.isWhitespace a
    · simpa [hp] using ih
    · simp [hp, headNonWS]

lemma headNonWS_of_head? {l : List Char} {d : Char}
    (h : l.head? = some d) (hd : d.isWhitespace = false) :
    headNonWS l = true := by
  cases l with
  | nil => rfl
  | cons c cs =>
    simp only [List.head?_cons, Option.some.injEq] at h
    subst h
    simp [headNonWS, hd]

lemma strip_headNonWS_rev (s : String) :
    headNonWS (strip s).data.reverse = true := by
  show headNonWS (stripChars s.data).reverse = true
  unfold stripChars
  rw [List.reverse_reverse]
  exact headNonWS_dropWhile _

lemma headNonWS_strip_core (D : List Char) (hDh : headNonWS D = true) :
    headNonWS (D.reverse.dropWhile Char.isWhitespace).reverse = true := by
  cases hz : D.reverse.dropWhile Char.isWhitespace with
  | nil => rfl
  | cons c cs =>
    have hZne : (c :: cs : List Char) ≠ [] := by simp
    have h2 : (c :: cs).getLast? = D.reverse.getLast? := by
      obtain ⟨V, hV⟩ := List.dropWhile_suffix (l := D.reverse)
        (p := Char.isWhitespace)
      rw [hz] at hV
      rw [← hV]
      exact (List.getLast?_append_of_ne_nil V hZne).symm
    have h3 : D.reverse.getLast? = D.head? := by
      have h := List.head?_reverse D.reverse
      rw [List.reverse_reverse] at h
      exact h.symm
    cases hD : D with
    | nil =>
      rw [hD] at hz
      simp at hz
    | cons d ds =>
      have hdns : d.isWhitespace = false := by
        rw [hD] at hDh
        simpa [headNonWS] using hDh
      refine headNonWS_of_head? ?_ hdns
      rw [List.head?_reverse, h2, h3, hD]
      rfl

lemma strip_headNonWS (s : String) : headNonWS (strip s).data = true := by
  show headNonWS (stripChars s.data) = true
  unfold stripChars
  exact headNonWS_strip_core _ (headNonWS_dropWhile s.data)

/-! ### Rounding lemmas -/

lemma round_mono_q {x y : ℚ} (h : x ≤ y) : round x ≤ round y := by
  rw [round_eq, round_eq]
  exact Int.floor_le_floor (by linarith)

lemma roundTo_mono (n : ℕ) {x y : ℚ} (h : x ≤ y) : roundTo n x ≤ roundTo n y := by
  unfold roundTo
  have h10 : (0 : ℚ) < 10 ^ n := by positivity
  have hr : round (x * 10 ^ n) ≤ round (y * 10 ^ n) :=
    round_mono_q (by nlinarith)
  have hc : ((round (x * 10 ^ n) : ℤ) : ℚ) ≤ ((round (y * 10 ^ n) : ℤ) : ℚ) := by
    exact_mod_cast hr
  exact div_le_div_of_nonneg_right hc h10.le

lemma roundTo_eq_self {n : ℕ} {q : ℚ} (k : ℤ) (h : q * 10 ^ n = (k : ℚ)) :
    roundTo n q = q := by
  unfold roundTo
  rw [h, round_intCast]
  rw [div_eq_iff (by positivity : (10 : ℚ) ^ n ≠ 0)]
  exact h.symm

lemma roundTo2_nat_half (i : ℕ) :
    roundTo 2 ((i : ℚ) * (1/2)) = (i : ℚ) * (1/2) :=
  roundTo_eq_self (50 * i) (by push_cast; ring)

lemma roundTo2_nat_half_succ (i : ℕ) :
    roundTo 2 (((i : ℚ) + 1) * (1/2)) = ((i : ℚ) + 1) * (1/2) :=
  roundTo_eq_self (50 * i + 50) (by push_cast; ring)

/-! ### filterMap helpers -/

lemma filterMap_eq_map_of {α β : Type} (f : α → Option β) (g : α → β)
    (l : List α) (h : ∀ x ∈ l, f x = some (g x)) :
    l.filterMap f = l.map g := by
  induction l with
  | nil => rfl
  | cons x xs ih =>
    rw [List.filterMap_cons, h x (List.mem_cons_self x xs), List.map_cons,
        ih (fun y hy => h y (List.mem_cons_of_mem x hy))]

lemma filterMap_guard_eq_filter_map {α β : Type} (p : α → Prop)
    [DecidablePred p] (f : α → β) (l : List α) :
    l.filterMap (fun x => if p x then none else some (f x)) =
      (l.filter (fun x => decide ¬ p x)).map f := by
  induction l with
  | nil => rfl
  | cons x xs ih =>
    by_cases h : p x <;>
      simp [List.filterMap_cons, List.filter_cons, h, ih]

/-! ### `" ".join` lemmas -/

lemma joinSp_ne_nil_data (p q : String) (ps : List String) :
    (joinSp (p :: q :: ps)).data =
      p.data ++ ' ' :: (joinSp (q :: ps)).data := by
  show (p ++ " " ++ joinSp (q :: ps)).data = _
  rw [String.data_append, String.data_append, List.append_assoc]
  rfl

lemma joinSp_eq_empty {ps : List String} (hne : ∀ p ∈ ps, p ≠ "")
    (h : joinSp ps = "") : ps = [] := by
  cases ps with
  | nil => rfl
  | cons p rest =>
    cases rest with
    | nil =>
      exact absurd h (hne p (List.mem_cons_self p []))
    | cons q ps' =>
      exfalso
      have hd := congrArg String.data h
      rw [joinSp_ne_nil_data] at hd
      have : p.data ++ ' ' :: (joinSp (q :: ps')).data ≠ [] := by
        cases p.data <;> simp
      exact this hd

lemma headNonWS_append_left {a b : List Char} (ha : a ≠ [])
    (h : headNonWS a = true) : headNonWS (a ++ b) = true := by
  cases a with
  | nil => exact absurd rfl ha
  | cons c cs => simpa [headNonWS] using h

lemma hasDoubleSpace_append (a b : List Char)
    (ha : hasDoubleSpace a = false) (hb : hasDoubleSpace b = false)
    (hab : ∀ x y, a.getLast? = some x → b.head? = some y →
      ¬(x = ' ' ∧ y = ' ')) :
    hasDoubleSpace (a ++ b) = false := by
  induction a with
  | nil => simpa using hb
  | cons x xs ih =>
    cases xs with
    | nil =>
      cases b with
      | nil => simpa using ha
      | cons y bs =>
        show hasDoubleSpace (x :: y :: bs) = false
        have hxy := hab x y rfl rfl
        have hx : (decide (x = ' ') && decide (y = ' ')) = false := by
          by_cases h1 : x = ' ' <;> by_cases h2 : y = ' ' <;>
            simp [h1, h2] at hxy ⊢
        rw [hasDoubleSpace]
        simp only [hx, Bool.false_or]
        exact hb
    | cons x' rest =>
      show hasDoubleSpace (x :: (x' :: rest ++ b)) = false
      have hsplit : hasDoubleSpace (x :: x' :: rest) = false := ha
      rw [hasDoubleSpace] at hsplit
      have h1 : (decide (x = ' ') && decide (x' = ' ')) = false := by
        rcases Bool.or_eq_false_iff.mp hsplit with ⟨h1, _⟩
        exact h1
      have h2 : hasDoubleSpace (x' :: rest) = false := by
        rcases Bool.or_eq_false_iff.mp hsplit with ⟨_, h2⟩
        exact h2
      have htail : hasDoubleSpace (x' :: rest ++ b) = false :=
        ih h2 (fun u v hu hv => hab u v (by rw [List.getLast?_cons_cons]; exact hu) hv)
      show hasDoubleSpace (x :: x' :: (rest ++ b)) = false
      rw [hasDoubleSpace]
      simp only [h1, Bool.false_or]
      exact htail

lemma joinSp_props (ps : List String)
    (hne : ∀ p ∈ ps, p ≠ "")
    (hh : ∀ p ∈ ps, headNonWS p.data = true)
    (ht : ∀ p ∈ ps, headNonWS p.data.reverse = true)
    (hd : ∀ p ∈ ps, hasDoubleSpace p.data = false) :
    headNonWS (joinSp ps).data = true ∧
    headNonWS (joinSp ps).data.reverse = true ∧
    hasDoubleSpace (joinSp ps).data = false := by
  induction ps with
  | nil => exact ⟨rfl, rfl, rfl⟩
  | cons p rest ih =>
    cases rest with
    | nil =>
      exact ⟨hh p (by simp), ht p (by simp), hd p (by simp)⟩
    | cons q ps' =>
      have hmem : ∀ r ∈ q :: ps', r ∈ p :: q :: ps' := by
        intro r hr; exact List.mem_cons_of_mem p hr
      obtain ⟨ih1, ih2, ih3⟩ := ih
        (fun r hr => hne r (hmem r hr))
        (fun r hr => hh r (hmem r hr))
        (fun r hr => ht r (hmem r hr))
        (fun r hr => hd r (hmem r hr))
      have hpne : p.data ≠ [] := by
        intro h
        exact hne p (by simp) (by cases p; simp_all)
      have hJne : (joinSp (q :: ps')).data ≠ [] := by
        intro h
        have hempty : joinSp (q :: ps') = "" := by
          simpa using congrArg String.mk h
        have := joinSp_eq_empty (fun r hr => hne r (hmem r hr)) hempty
        simp at this
      rw [joinSp_ne_nil_data]
      refine ⟨?_, ?_, ?_⟩
      · exact headNonWS_append_left hpne (hh p (by simp))
      · rw [List.reverse_append, List.reverse_cons, List.append_assoc]
        refine headNonWS_append_left ?_ ?_
        · intro h
          exact hJne (by simpa using congrArg List.reverse h)
        · exact ih2
      · refine hasDoubleSpace_append _ _ (hd p (by simp)) ?_ ?_
        · show hasDoubleSpace (' ' :: (joinSp (q :: ps')).data) = false
          cases hJ : (joinSp (q :: ps')).data with
          | nil => rfl
          | cons c cs =>
            have hc : (c.isWhitespace : Bool) = false := by
              have := ih1
              rw [hJ] at this
              simpa [headNonWS] using this
            have hcs : c ≠ ' ' := by
              intro h; subst h; simp [Char.isWhitespace] at hc
            rw [hasDoubleSpace]
            simp only [Bool.or_eq_false_iff]
            refine ⟨by simp [hcs], ?_⟩
            rw [← hJ]
            exact ih3
        · intro x y hx hy hxy
          obtain ⟨hx', hy'⟩ := hxy
          subst hx' hy'
          have h1 : p.data.getLast? = p.data.reverse.head? :=
            (List.head?_reverse p.data).symm
          rw [h1] at hx
          have := ht p (by simp)
          cases hrev : p.data.reverse with
          | nil => rw [hrev] at hx; simp at hx
          | cons c cs =>
            rw [hrev] at hx
            simp only [List.head?_cons, Option.some.injEq] at hx
            subst hx
            rw [hrev] at this
            simp [headNonWS, Char.isWhitespace] at this

/-! ### Pipeline lemmas -/

namespace FastServer

lemma processSegment_words_eq (s : Segment) :
    (processSegment s).1 =
      (match s.words with
       | .present ws => ws
       | _ => []).filterMap acceptSpan := by
  obtain ⟨t, w⟩ := s
  cases w with
  | absent => rfl
  | unreadable => rfl
  | present ws => cases ws <;> rfl

lemma wordsOf_eq_filterMap (segs : List Segment) :
    wordsOf segs = (allSpans segs).filterMap acceptSpan := by
  induction segs with
  | nil => rfl
  | cons s rest ih =>
    show (processSegment s).1 ++ wordsOf rest =
      ((match s.words with
        | .present ws => ws
        | _ => []) ++ allSpans rest).filterMap acceptSpan
    rw [List.filterMap_append, ih, processSegment_words_eq]

lemma processSegment_parts_strip (s : Segment) :
    ∀ p ∈ (processSegment s).2, ∃ u : String, p = strip u := by
  obtain ⟨t, w⟩ := s
  cases w with
  | absent =>
    intro p hp
    by_cases h : strip t ≠ "" <;> simp [processSegment, h] at hp
    exact ⟨t, hp⟩
  | unreadable =>
    intro p hp
    simp [processSegment] at hp
    exact ⟨t, hp⟩
  | present ws =>
    cases ws with
    | nil =>
      intro p hp
      simp [processSegment] at hp
      exact ⟨t, hp⟩
    | cons a as =>
      intro p hp
      simp only [processSegment, List.mem_filterMap] at hp
      obtain ⟨w', _, hw'⟩ := hp
      by_cases h : strip w'.word = ""
      · simp [h] at hw'
      · simp [h] at hw'
        exact ⟨w'.word, hw'.symm⟩

lemma partsOf_strip (segs : List Segment) :
    ∀ p ∈ partsOf segs, ∃ u : String, p = strip u := by
  intro p hp
  unfold partsOf at hp
  rw [List.mem_flatMap] at hp
  obtain ⟨s, _, hps⟩ := hp
  exact processSegment_parts_strip s p hps

lemma transcribe_words (segs : List Segment) (info : Info) :
    (transcribe segs info).words =
      if wordsOf segs = [] ∧ fullTextOf segs ≠ "" then
        fallbackWords (fullTextOf segs)
      else wordsOf segs := rfl

lemma transcribe_text (segs : List Segment) (info : Info) :
    (transcribe segs info).text = fullTextOf segs := rfl

end FastServer

namespace FastServer

lemma snd_mem_of_mem_enum {α : Type} {l : List α} {p : ℕ × α}
    (h : p ∈ l.enum) : p.2 ∈ l := by
  rw [List.mem_enum_iff_getElem?] at h
  exact List.getElem?_mem h

lemma fallbackWords_eq_map (t : String) :
    fallbackWords t =
      (splitWS t).enum.map (fun p =>
        ⟨p.2, (p.1 : ℚ) * (1/2), ((p.1 : ℚ) + 1) * (1/2), 3/4⟩) := by
  unfold fallbackWords
  apply filterMap_eq_map_of
  intro p hp
  obtain ⟨hne, hstrip⟩ := splitWS_mem t p.2 (snd_mem_of_mem_enum hp)
  rw [hstrip, if_neg hne, roundTo2_nat_half, roundTo2_nat_half_succ]

end FastServer

/-! ### Claim theorems -/

/-- C1: The fallback synthesizer runs if and only if, after all segments
are processed, the accumulated word list is empty and the accumulated full
text is non-empty; in that case it emits exactly one span per whitespace
token of the full text, with `start = i * 0.5`, `end = (i+1) * 0.5` and
`probability = 0.75`; it never runs when the extractor produced a real
word. -/
theorem fallback_synthesizer_spec (segs : List Segment) (info : Info) :
    (FastServer.wordsOf segs = [] → FastServer.fullTextOf segs ≠ "" →
      (FastServer.transcribe segs info).words =
        (splitWS (FastServer.fullTextOf segs)).enum.map (fun p =>
          ⟨p.2, (p.1 : ℚ) * (1/2), ((p.1 : ℚ) + 1) * (1/2), 3/4⟩)) ∧
    (FastServer.wordsOf segs ≠ [] →
      (FastServer.transcribe segs info).words = FastServer.wordsOf segs) ∧
    (FastServer.wordsOf segs = [] → FastServer.fullTextOf segs = "" →
      (FastServer.transcribe segs info).words = []) := by
  refine ⟨?_, ?_, ?_⟩
  · intro h1 h2
    rw [FastServer.transcribe_words, if_pos ⟨h1, h2⟩,
        FastServer.fallbackWords_eq_map]
  · intro h1
    rw [FastServer.transcribe_words, if_neg (fun hc => h1 hc.1)]
  · intro h1 h2
    rw [FastServer.transcribe_words, if_neg (fun hc => hc.2 h2), h1]

/-- Witness for C1 at Example 2 of the spec: one segment with text
`"hello world"` and no word data triggers the fallback. -/
theorem fallback_synthesizer_spec_witness :
    (FastServer.transcribe [⟨"hello world", SegmentWords.absent⟩]
        ⟨"en", 9/10⟩).words =
      (splitWS (FastServer.fullTextOf
          [⟨"hello world", SegmentWords.absent⟩])).enum.map (fun p =>
        ⟨p.2, (p.1 : ℚ) * (1/2), ((p.1 : ℚ) + 1) * (1/2), 3/4⟩) :=
  (fallback_synthesizer_spec [⟨"hello world", SegmentWords.absent⟩]
    ⟨"en", 9/10⟩).1 (by decide) (by decide)

/-- C2 counterexample: for the segment `{text: "hi", words: [{word: "  "}]}`
(word sequence present, its only span blank after trimming) the code appends
nothing at all to `full_text_parts` — the segment's trimmed text `"hi"` is
NOT appended as the claim requires — and the final text is empty. -/
theorem blank_words_text_not_appended :
    FastServer.wordsOf [⟨"hi", SegmentWords.present [⟨"  ", 0, 1/10, 1/2⟩]⟩]
      = [] ∧
    FastServer.partsOf [⟨"hi", SegmentWords.present [⟨"  ", 0, 1/10, 1/2⟩]⟩]
      ≠ [strip (Segment.mk "hi"
          (SegmentWords.present [⟨"  ", 0, 1/10, 1/2⟩])).text] ∧
    (FastServer.transcribe
      [⟨"hi", SegmentWords.present [⟨"  ", 0, 1/10, 1/2⟩]⟩] ⟨"en", 1⟩).text
      = "" := by
  refine ⟨by decide, by decide, by decide⟩

/-- C2 amended: for a segment whose word sequence is present, blank spans
are excluded from the word output; the segment's trimmed text is appended
as a single unit only when the word sequence is empty — a present,
non-empty word sequence consisting solely of blank spans contributes
nothing to either accumulator. -/
theorem blank_words_segment_contribution (s : Segment) (ws : List WordSpan)
    (hw : s.words = SegmentWords.present ws)
    (hblank : ∀ w ∈ ws, strip w.word = "") :
    (FastServer.processSegment s).1 = [] ∧
    (FastServer.processSegment s).2 =
      (if ws = [] then [strip s.text] else []) := by
  obtain ⟨t, w⟩ := s
  simp only [Segment.mk.injEq] at hw
  subst hw
  cases ws with
  | nil => exact ⟨rfl, rfl⟩
  | cons a as =>
    refine ⟨?_, ?_⟩
    · show (a :: as).filterMap FastServer.acceptSpan = []
      rw [List.filterMap_eq_nil_iff]
      intro w hw
      unfold FastServer.acceptSpan
      rw [if_pos (hblank w hw)]
    · rw [if_neg (by simp : ¬(a :: as = []))]
      show (a :: as).filterMap (fun w =>
        if strip w.word = "" then none else some (strip w.word)) = []
      rw [List.filterMap_eq_nil_iff]
      intro w hw
      rw [if_pos (hblank w hw)]

/-- Witness for C2 amended at the blank-span segment. -/
theorem blank_words_segment_contribution_witness :
    (FastServer.processSegment
      ⟨"hi", SegmentWords.present [⟨"  ", 0, 1/10, 1/2⟩]⟩).1 = [] ∧
    (FastServer.processSegment
      ⟨"hi", SegmentWords.present [⟨"  ", 0, 1/10, 1/2⟩]⟩).2 =
      (if ([⟨"  ", 0, 1/10, 1/2⟩] : List WordSpan) = [] then
        [strip (Segment.mk "hi"
          (SegmentWords.present [⟨"  ", 0, 1/10, 1/2⟩])).text]
       else []) :=
  blank_words_segment_contribution
    ⟨"hi", SegmentWords.present [⟨"  ", 0, 1/10, 1/2⟩]⟩
    [⟨"  ", 0, 1/10, 1/2⟩] rfl (by decide)

/-- C3: a segment whose word sequence cannot be read (`list(segment.words)`
raises) contributes no entries to the word list and only its trimmed text
to the full-text parts, and all other segments are still processed
normally. -/
theorem unreadable_segment_localized (xs ys : List Segment) (f : Segment)
    (hf : f.words = SegmentWords.unreadable) :
    FastServer.wordsOf (xs ++ f :: ys) =
      FastServer.wordsOf xs ++ FastServer.wordsOf ys ∧
    FastServer.partsOf (xs ++ f :: ys) =
      FastServer.partsOf xs ++ strip f.text :: FastServer.partsOf ys := by
  obtain ⟨t, w⟩ := f
  simp only [Segment.mk.injEq] at hf
  subst hf
  constructor
  · simp [FastServer.wordsOf, List.flatMap_append, List.flatMap_cons,
          FastServer.processSegment]
  · simp [FastServer.partsOf, List.flatMap_append, List.flatMap_cons,
          FastServer.processSegment]

/-- Witness for C3: a failing middle segment between two good ones. -/
theorem unreadable_segment_localized_witness :
    FastServer.wordsOf ([⟨"a", SegmentWords.present [⟨"a", 0, 1, 1⟩]⟩] ++
        ⟨" oops ", SegmentWords.unreadable⟩ :: [⟨"b", SegmentWords.absent⟩]) =
      FastServer.wordsOf [⟨"a", SegmentWords.present [⟨"a", 0, 1, 1⟩]⟩] ++
        FastServer.wordsOf [⟨"b", SegmentWords.absent⟩] ∧
    FastServer.partsOf ([⟨"a", SegmentWords.present [⟨"a", 0, 1, 1⟩]⟩] ++
        ⟨" oops ", SegmentWords.unreadable⟩ :: [⟨"b", SegmentWords.absent⟩]) =
      FastServer.partsOf [⟨"a", SegmentWords.present [⟨"a", 0, 1, 1⟩]⟩] ++
        strip (Segment.mk " oops " SegmentWords.unreadable).text ::
          FastServer.partsOf [⟨"b", SegmentWords.absent⟩] :=
  unreadable_segment_localized
    [⟨"a", SegmentWords.present [⟨"a", 0, 1, 1⟩]⟩]
    [⟨"b", SegmentWords.absent⟩]
    ⟨" oops ", SegmentWords.unreadable⟩ rfl

/-- C4: whenever at least one backend span has a non-blank trimmed word,
the resulting word list is exactly the blank-filtered, order-preserving,
rounded image of the backend's spans (start/end to 2 decimals, probability
to 3 decimals via `roundSpan`), and every emitted word is non-blank. -/
theorem word_extractor_spec (segs : List Segment) (info : Info)
    (h : ∃ w ∈ FastServer.allSpans segs, strip w.word ≠ "") :
    (FastServer.transcribe segs info).words =
      (FastServer.allSpans segs).filterMap FastServer.acceptSpan ∧
    ∀ d ∈ (FastServer.transcribe segs info).words, d.word ≠ "" := by
  obtain ⟨w, hw, hne⟩ := h
  have hmem : FastServer.roundSpan w ∈
      (FastServer.allSpans segs).filterMap FastServer.acceptSpan := by
    rw [List.mem_filterMap]
    exact ⟨w, hw, by unfold FastServer.acceptSpan; rw [if_neg hne]⟩
  have hwords : FastServer.wordsOf segs ≠ [] := by
    rw [FastServer.wordsOf_eq_filterMap]
    intro hc
    rw [hc] at hmem
    simp at hmem
  have heq : (FastServer.transcribe segs info).words =
      FastServer.wordsOf segs := by
    rw [FastServer.transcribe_words, if_neg (fun hc => hwords hc.1)]
  refine ⟨by rw [heq, FastServer.wordsOf_eq_filterMap], ?_⟩
  intro d hd
  rw [heq, FastServer.wordsOf_eq_filterMap, List.mem_filterMap] at hd
  obtain ⟨u, _, hau⟩ := hd
  unfold FastServer.acceptSpan at hau
  by_cases hc : strip u.word = ""
  · rw [if_pos hc] at hau
    exact absurd hau (by simp)
  · rw [if_neg hc] at hau
    have hd : d = FastServer.roundSpan u := (Option.some.inj hau).symm
    subst hd
    exact hc

/-- Witness for C4 at Example 1 of the spec: two genuine word spans. -/
theorem word_extractor_spec_witness :
    (FastServer.transcribe
        [⟨" hi there ", SegmentWords.present
          [⟨"hi", 0, 4/10, 91/100⟩, ⟨" there", 4/10, 7/10, 88/100⟩]⟩]
        ⟨"en", 9/10⟩).words =
      (FastServer.allSpans
        [⟨" hi there ", SegmentWords.present
          [⟨"hi", 0, 4/10, 91/100⟩, ⟨" there", 4/10, 7/10, 88/100⟩]⟩]
        ).filterMap FastServer.acceptSpan ∧
    ∀ d ∈ (FastServer.transcribe
        [⟨" hi there ", SegmentWords.present
          [⟨"hi", 0, 4/10, 91/100⟩, ⟨" there", 4/10, 7/10, 88/100⟩]⟩]
        ⟨"en", 9/10⟩).words, d.word ≠ "" :=
  word_extractor_spec
    [⟨" hi there ", SegmentWords.present
      [⟨"hi", 0, 4/10, 91/100⟩, ⟨" there", 4/10, 7/10, 88/100⟩]⟩]
    ⟨"en", 9/10⟩
    ⟨⟨"hi", 0, 4/10, 91/100⟩, List.mem_cons_self _ _, by decide⟩

/-- C5: for every backend result (fallback applied or not), the reported
`total_duration` is the `end` of the last element of `words`, and `0.0`
when `words` is empty. -/
theorem total_duration_spec (segs : List Segment) (info : Info) :
    (FastServer.transcribe segs info).total_duration =
      (((FastServer.transcribe segs info).words.getLast?).map
        WordSpan.end_).getD 0 := by
  show (match (FastServer.transcribe segs info).words.getLast? with
        | some w => w.end_
        | none => 0) = _
  cases h : (FastServer.transcribe segs info).words.getLast? <;> simp [h]

lemma map_keys_wordJson (l : List WordSpan) :
    (l.map wordJson).map Json.keys =
      List.replicate l.length ["word", "start", "end", "probability"] := by
  induction l with
  | nil => rfl
  | cons a as ih =>
    simp only [List.map_cons, List.length_cons, List.replicate_succ]
    rw [ih]
    rfl

/-- C6 counterexample: the simple server's successful response carries
neither a `words` field nor a `total_duration` field, so the claim that
both backends return all five fields is false. -/
theorem simple_response_missing_fields :
    "words" ∉ (SimpleServer.inferenceResponse "ar" ⟨"hello", some "en"⟩).keys
    ∧ "total_duration" ∉
        (SimpleServer.inferenceResponse "ar" ⟨"hello", some "en"⟩).keys := by
  refine ⟨by decide, by decide⟩

/-- C6 amended: the fast server's successful response carries the five
fields `text`, `language`, `language_probability`, `words` (an array of
objects with keys `word`, `start`, `end`, `probability`) and
`total_duration`; the simple server's successful response carries only
`text`, `language` and `language_probability`. -/
theorem response_fields_spec (segs : List Segment) (info : Info)
    (lang : String) (res : SimpleServer.WhisperResult) :
    (FastServer.inferenceResponse segs info).keys =
      ["text", "language", "language_probability", "words",
       "total_duration"] ∧
    ((FastServer.transcribe segs info).words.map wordJson).map Json.keys =
      List.replicate (FastServer.transcribe segs info).words.length
        ["word", "start", "end", "probability"] ∧
    (SimpleServer.inferenceResponse lang res).keys =
      ["text", "language", "language_probability"] :=
  ⟨rfl, map_keys_wordJson _, rfl⟩

/-- C7 counterexample: for segments `[{text:"hi", words:[one real word]},
{text:"  ", words:[] (empty list)}]` the assembled text is `"hi "`, which
carries trailing whitespace — the text is not a trimmed join. -/
theorem text_not_trimmed_join :
    (FastServer.transcribe
      [⟨"hi", SegmentWords.present [⟨"hi", 0, 1/10, 1/2⟩]⟩,
       ⟨"  ", SegmentWords.present []⟩] ⟨"en", 1⟩).text = "hi " ∧
    headNonWS ((FastServer.transcribe
      [⟨"hi", SegmentWords.present [⟨"hi", 0, 1/10, 1/2⟩]⟩,
       ⟨"  ", SegmentWords.present []⟩] ⟨"en", 1⟩).text).data.reverse
      = false := by
  refine ⟨by decide, by decide⟩

/-- C7 amended: the assembled text is the single-space join of the
per-segment contributions (each already trimmed); provided every
contribution is non-empty and contains no doubled space, the text carries
no leading or trailing whitespace and no doubled separator spaces, and it
is empty only when no segment contributed any text at all. -/
theorem text_join_spec (segs : List Segment) (info : Info)
    (h1 : ∀ p ∈ FastServer.partsOf segs, p ≠ "")
    (h2 : ∀ p ∈ FastServer.partsOf segs, hasDoubleSpace p.data = false) :
    (FastServer.transcribe segs info).text =
      joinSp (FastServer.partsOf segs) ∧
    headNonWS (FastServer.transcribe segs info).text.data = true ∧
    headNonWS (FastServer.transcribe segs info).text.data.reverse = true ∧
    hasDoubleSpace (FastServer.transcribe segs info).text.data = false ∧
    ((FastServer.transcribe segs info).text = "" →
      FastServer.partsOf segs = []) := by
  have hh : ∀ p ∈ FastServer.partsOf segs, headNonWS p.data = true := by
    intro p hp
    obtain ⟨u, rfl⟩ := FastServer.partsOf_strip segs p hp
    exact strip_headNonWS u
  have ht : ∀ p ∈ FastServer.partsOf segs,
      headNonWS p.data.reverse = true := by
    intro p hp
    obtain ⟨u, rfl⟩ := FastServer.partsOf_strip segs p hp
    exact strip_headNonWS_rev u
  obtain ⟨j1, j2, j3⟩ := joinSp_props (FastServer.partsOf segs) h1 hh ht h2
  refine ⟨rfl, j1, j2, j3, fun h => joinSp_eq_empty h1 h⟩

/-- Witness for C7 amended: one segment contributing the single word
`"hi"`. -/
theorem text_join_spec_witness :
    (FastServer.transcribe
        [⟨"hi", SegmentWords.present [⟨"hi", 0, 1/10, 1/2⟩]⟩]
        ⟨"en", 1⟩).text =
      joinSp (FastServer.partsOf
        [⟨"hi", SegmentWords.present [⟨"hi", 0, 1/10, 1/2⟩]⟩]) ∧
    headNonWS (FastServer.transcribe
        [⟨"hi", SegmentWords.present [⟨"hi", 0, 1/10, 1/2⟩]⟩]
        ⟨"en", 1⟩).text.data = true ∧
    headNonWS (FastServer.transcribe
        [⟨"hi", SegmentWords.present [⟨"hi", 0, 1/10, 1/2⟩]⟩]
        ⟨"en", 1⟩).text.data.reverse = true ∧
    hasDoubleSpace (FastServer.transcribe
        [⟨"hi", SegmentWords.present [⟨"hi", 0, 1/10, 1/2⟩]⟩]
        ⟨"en", 1⟩).text.data = false ∧
    ((FastServer.transcribe
        [⟨"hi", SegmentWords.present [⟨"hi", 0, 1/10, 1/2⟩]⟩]
        ⟨"en", 1⟩).text = "" →
      FastServer.partsOf
        [⟨"hi", SegmentWords.present [⟨"hi", 0, 1/10, 1/2⟩]⟩] = []) :=
  text_join_spec [⟨"hi", SegmentWords.present [⟨"hi", 0, 1/10, 1/2⟩]⟩]
    ⟨"en", 1⟩ (by decide) (by decide)

/-- C8: when the backend returns zero segments, or only segments with no
word data and blank trimmed text, the pipeline succeeds with empty text,
an empty word list and `total_duration = 0.0`, and the response is the
ordinary success object (no error field). -/
theorem empty_result_ok (segs : List Segment) (info : Info)
    (h : ∀ s ∈ segs, s.words = SegmentWords.absent ∧ strip s.text = "") :
    (FastServer.transcribe segs info).text = "" ∧
    (FastServer.transcribe segs info).words = [] ∧
    (FastServer.transcribe segs info).total_duration = 0 ∧
    (FastServer.inferenceResponse segs info).keys =
      ["text", "language", "language_probability", "words",
       "total_duration"] := by
  have hproc : ∀ s ∈ segs, FastServer.processSegment s =
      (([] : List WordSpan), ([] : List String)) := by
    intro s hs
    obtain ⟨hw, htext⟩ := h s hs
    obtain ⟨t, w⟩ := s
    simp only [Segment.mk.injEq] at hw
    subst hw
    simp only at htext
    simp [FastServer.processSegment, htext]
  have hwords : FastServer.wordsOf segs = [] := by
    unfold FastServer.wordsOf
    rw [List.flatMap_eq_nil_iff]
    intro s hs
    rw [hproc s hs]
  have hparts : FastServer.partsOf segs = [] := by
    unfold FastServer.partsOf
    rw [List.flatMap_eq_nil_iff]
    intro s hs
    rw [hproc s hs]
  have htext0 : FastServer.fullTextOf segs = "" := by
    unfold FastServer.fullTextOf
    rw [hparts]
    rfl
  have hfinal : (FastServer.transcribe segs info).words = [] := by
    rw [FastServer.transcribe_words, if_neg (fun hc => hc.2 htext0), hwords]
  refine ⟨?_, hfinal, ?_, rfl⟩
  · rw [FastServer.transcribe_text]
    exact htext0
  · show (match (FastServer.transcribe segs info).words.getLast? with
          | some w => w.end_
          | none => (0 : ℚ)) = (0 : ℚ)
    rw [hfinal]
    rfl

/-- Witness for C8 at Example 3 of the spec (no segments) together with a
blank, word-free segment. -/
theorem empty_result_ok_witness :
    (FastServer.transcribe [⟨"   ", SegmentWords.absent⟩] ⟨"ar", 1⟩).text
      = "" ∧
    (FastServer.transcribe [⟨"   ", SegmentWords.absent⟩] ⟨"ar", 1⟩).words
      = [] ∧
    (FastServer.transcribe [⟨"   ", SegmentWords.absent⟩]
      ⟨"ar", 1⟩).total_duration = 0 ∧
    (FastServer.inferenceResponse [⟨"   ", SegmentWords.absent⟩]
      ⟨"ar", 1⟩).keys =
      ["text", "language", "language_probability", "words",
       "total_duration"] :=
  empty_result_ok [⟨"   ", SegmentWords.absent⟩] ⟨"ar", 1⟩ (by decide)

lemma wordsOf_eq_filter_map (segs : List Segment) :
    FastServer.wordsOf segs =
      ((FastServer.allSpans segs).filter
        (fun w => decide ¬(strip w.word = ""))).map FastServer.roundSpan := by
  rw [FastServer.wordsOf_eq_filterMap]
  exact filterMap_guard_eq_filter_map (fun w => strip w.word = "")
    FastServer.roundSpan _

/-- C9 counterexample: a backend result whose spans are out of temporal
order passes through unsorted, so the claim fails for that backend
result. -/
theorem words_unsorted_cex :
    ¬ List.Sorted (· ≤ ·)
      (((FastServer.transcribe
        [⟨"b a", SegmentWords.present
          [⟨"b", 1, 2, 1/2⟩, ⟨"a", 0, 1, 1/2⟩]⟩] ⟨"en", 1⟩).words).map
        WordSpan.start) := by
  intro h
  have h1 : roundTo 2 (1 : ℚ) = 1 := roundTo_eq_self 100 (by norm_num)
  have h0 : roundTo 2 (0 : ℚ) = 0 := roundTo_eq_self 0 (by norm_num)
  have heq : ((FastServer.transcribe
      [⟨"b a", SegmentWords.present
        [⟨"b", 1, 2, 1/2⟩, ⟨"a", 0, 1, 1/2⟩]⟩] ⟨"en", 1⟩).words).map
      WordSpan.start = [roundTo 2 1, roundTo 2 0] := rfl
  rw [heq, h1, h0] at h
  rw [List.sorted_cons] at h
  have h10 := h.1 0 (by simp)
  norm_num at h10

/-- C9 amended: provided the backend's word spans appear in non-decreasing
start order, the produced words sequence is non-decreasing in start — for
extracted words because filtering preserves order and decimal rounding is
monotone, and for synthesized words because their starts are `i * 0.5`. -/
theorem words_sorted_spec (segs : List Segment) (info : Info)
    (h : List.Sorted (· ≤ ·)
      ((FastServer.allSpans segs).map WordSpan.start)) :
    List.Sorted (· ≤ ·)
      (((FastServer.transcribe segs info).words).map WordSpan.start) := by
  rw [FastServer.transcribe_words]
  by_cases hc : FastServer.wordsOf segs = [] ∧ FastServer.fullTextOf segs ≠ ""
  · rw [if_pos hc, FastServer.fallbackWords_eq_map, List.map_map]
    have hfun : (WordSpan.start ∘ fun p : ℕ × String =>
        (⟨p.2, (p.1 : ℚ) * (1/2), ((p.1 : ℚ) + 1) * (1/2), 3/4⟩ :
          WordSpan)) = fun p : ℕ × String => (p.1 : ℚ) * (1/2) := rfl
    rw [hfun]
    have hfst : ((splitWS (FastServer.fullTextOf segs)).enum).Pairwise
        (fun p q : ℕ × String => p.1 < q.1) := by
      have h1 : ((splitWS (FastServer.fullTextOf segs)).enum.map
          Prod.fst).Pairwise (· < ·) := by
        rw [List.enum_map_fst]
        exact List.pairwise_lt_range _
      exact (List.pairwise_map).mp h1
    show List.Pairwise _ _
    rw [List.pairwise_map]
    refine hfst.imp ?_
    intro p q hpq
    have : (p.1 : ℚ) ≤ (q.1 : ℚ) := Nat.cast_le.mpr (le_of_lt hpq)
    linarith
  · rw [if_neg hc, wordsOf_eq_filter_map, List.map_map]
    have hfun : (WordSpan.start ∘ FastServer.roundSpan) =
        fun w : WordSpan => roundTo 2 w.start := rfl
    rw [hfun]
    show List.Pairwise _ _
    rw [List.pairwise_map]
    have hA : (FastServer.allSpans segs).Pairwise
        (fun a b : WordSpan => a.start ≤ b.start) := (List.pairwise_map).mp h
    have hfil : ((FastServer.allSpans segs).filter
        (fun w => decide ¬(strip w.word = ""))).Pairwise
        (fun a b : WordSpan => a.start ≤ b.start) :=
      hA.sublist (List.filter_sublist _)
    exact hfil.imp (fun hab => roundTo_mono 2 hab)

/-- Witness for C9 amended at Example 1 of the spec (spans already in
order). -/
theorem words_sorted_spec_witness :
    List.Sorted (· ≤ ·)
      (((FastServer.transcribe
        [⟨"hi there", SegmentWords.present
          [⟨"hi", 0, 4/10, 91/100⟩, ⟨"there", 4/10, 7/10, 88/100⟩]⟩]
        ⟨"en", 9/10⟩).words).map WordSpan.start) :=
  words_sorted_spec
    [⟨"hi there", SegmentWords.present
      [⟨"hi", 0, 4/10, 91/100⟩, ⟨"there", 4/10, 7/10, 88/100⟩]⟩]
    ⟨"en", 9/10⟩
    (by
      rw [show (FastServer.allSpans
        [⟨"hi there", SegmentWords.present
          [⟨"hi", 0, 4/10, 91/100⟩, ⟨"there", 4/10, 7/10, 88/100⟩]⟩]).map
          WordSpan.start = [0, 4/10] from rfl]
      rw [List.sorted_cons]
      refine ⟨?_, List.sorted_singleton _⟩
      intro b hb
      rw [List.mem_singleton] at hb
      subst hb
      norm_num)

/-- C10: when the simple backend's result dictionary carries no
`language` key, the response's `language` field equals the request's
language hint (`language` query parameter, defaulting to `"ar"`). -/
theorem simple_language_fallback (q : Option String)
    (res : SimpleServer.WhisperResult) (h : res.language = none) :
    (SimpleServer.transcribe (requestLanguage q) res).language =
      requestLanguage q ∧
    (SimpleServer.inferenceResponse (requestLanguage q) res).get "language"
      = some (Json.str (requestLanguage q)) := by
  constructor
  · show res.language.getD (requestLanguage q) = requestLanguage q
    rw [h]
    rfl
  · have hbase : (SimpleServer.inferenceResponse (requestLanguage q)
        res).get "language" =
        some (Json.str (res.language.getD (requestLanguage q))) := rfl
    rw [hbase, h]
    rfl

/-- Witness for C10: no query parameter, backend result without a
language key. -/
theorem simple_language_fallback_witness :
    (SimpleServer.transcribe (requestLanguage none)
      ⟨"abc", none⟩).language = requestLanguage none ∧
    (SimpleServer.inferenceResponse (requestLanguage none)
      ⟨"abc", none⟩).get "language" =
      some (Json.str (requestLanguage none)) :=
  simple_language_fallback none ⟨"abc", none⟩ rfl
